import Mathlib

/-!
Verification development for a single-file, log-structured key-value store
written in Go.  The store appends JSON-encoded records (one per line) to a
data file and keeps an in-memory index from key to the byte offset of the
most recent record for that key.  The embedding below translates the Go
source into Lean definitions: machine strings become Lean strings (lists of
unicode scalar values), the data file becomes a list of characters, offsets
count characters, and fallible operations return `Except`.

The Go code serializes records with `encoding/json`; the functions
`escChar`, `marshalKV`, `parseStrBody`, `parseFields` and `unmarshalKV`
model that library behaviour for the one struct the store uses: a pair of
string fields named key and value.  The encoder follows the escaping rules
of `encoding/json` (with its default HTML escaping); the decoder parses an
object whose fields are strings, ignores unknown fields, lets duplicated
fields overwrite earlier ones, tolerates surrounding whitespace and rejects
trailing data, raw control characters and malformed input.
-/

namespace OwnDB

/-- Hex digit characters used by the JSON encoder (lowercase, as in Go). -/
def hexDigit : Nat → Char
  | 0 => '0' | 1 => '1' | 2 => '2' | 3 => '3'
  | 4 => '4' | 5 => '5' | 6 => '6' | 7 => '7'
  | 8 => '8' | 9 => '9' | 10 => 'a' | 11 => 'b'
  | 12 => 'c' | 13 => 'd' | 14 => 'e' | 15 => 'f'
  | _ + 16 => '0'

/-- Value of one hex digit, upper or lower case, as accepted by the JSON
string unescaper. -/
def hexVal (c : Char) : Option Nat :=
  if '0' ≤ c ∧ c ≤ '9' then some (c.toNat - '0'.toNat)
  else if 'a' ≤ c ∧ c ≤ 'f' then some (c.toNat - 'a'.toNat + 10)
  else if 'A' ≤ c ∧ c ≤ 'F' then some (c.toNat - 'A'.toNat + 10)
  else none

/-- Escaping of one character inside a JSON string literal, following the
Go `encoding/json` encoder with HTML escaping enabled: quote, backslash,
newline, carriage return and tab get two-character escapes, other control
characters become `\u00XX`, the HTML-sensitive characters and the two
unicode line separators become `\uXXXX`, everything else is emitted as is. -/
def escChar (c : Char) : List Char :=
  if c = '"' then ['\\', '"']
  else if c = '\\' then ['\\', '\\']
  else if c = '\n' then ['\\', 'n']
  else if c = '\r' then ['\\', 'r']
  else if c = '\t' then ['\\', 't']
  else if c.toNat < 32 then ['\\', 'u', '0', '0', hexDigit (c.toNat / 16), hexDigit (c.toNat % 16)]
  else if c = '<' then ['\\', 'u', '0', '0', '3', 'c']
  else if c = '>' then ['\\', 'u', '0', '0', '3', 'e']
  else if c = '&' then ['\\', 'u', '0', '0', '2', '6']
  else if c.toNat = 0x2028 then ['\\', 'u', '2', '0', '2', '8']
  else if c.toNat = 0x2029 then ['\\', 'u', '2', '0', '2', '9']
  else [c]

/-- Escaping of a whole string body (no surrounding quotes). -/
def escStr : List Char → List Char
  | [] => []
  | c :: s => escChar c ++ escStr s

/-- KVPair mirrors the Go struct with json tags key and value. -/
structure KVPair where
  key : String
  value : String
deriving DecidableEq, Repr

/-- Serialized form of a KVPair, as produced by `json.Marshal` on the Go
struct: an object with the two string fields key and value, no spaces. -/
def marshalKV (k v : String) : List Char :=
  ['{', '"', 'k', 'e', 'y', '"', ':', '"'] ++ escStr k.data ++
    ['"', ',', '"', 'v', 'a', 'l', 'u', 'e', '"', ':', '"'] ++ escStr v.data ++
    ['"', '}']

/-- JSON whitespace. -/
def isWS (c : Char) : Bool := c = ' ' || c = '\t' || c = '\n' || c = '\r'

/-- Skipping of leading JSON whitespace. -/
def skipWS (cs : List Char) : List Char := cs.dropWhile isWS

/-- Simple one-character escapes accepted inside JSON string literals. -/
def unescSimple (e : Char) : Option Char :=
  if e = '"' then some '"'
  else if e = '\\' then some '\\'
  else if e = '/' then some '/'
  else if e = 'b' then some (Char.ofNat 8)
  else if e = 'f' then some (Char.ofNat 12)
  else if e = 'n' then some '\n'
  else if e = 'r' then some '\r'
  else if e = 't' then some '\t'
  else none

/-- Parse of exactly four hex digits. -/
def hex4 : List Char → Option (Nat × List Char)
  | a :: b :: c :: d :: rest =>
    match hexVal a, hexVal b, hexVal c, hexVal d with
    | some x, some y, some z, some w => some (((x * 16 + y) * 16 + z) * 16 + w, rest)
    | _, _, _, _ => none
  | _ => none

/-- Parse of a JSON string body after the opening quote, up to and past the
closing quote; returns the decoded content and the remaining input.  The
fuel argument bounds recursion depth; every step consumes at least one
input character, so fuel equal to the input length always suffices.
Unpaired surrogate escapes decode to U+FFFD, as in the Go decoder. -/
def parseStrBody : Nat → List Char → Option (List Char × List Char)
  | 0, _ => none
  | _ + 1, [] => none
  | fuel + 1, c :: rest =>
    if c = '"' then some ([], rest)
    else if c = '\\' then
      match rest with
      | [] => none
      | e :: rest1 =>
        if e = 'u' then
          match hex4 rest1 with
          | none => none
          | some (n, rest2) =>
            if n < 0xD800 ∨ 0xDFFF < n then
              (parseStrBody fuel rest2).map (fun p => (Char.ofNat n :: p.1, p.2))
            else if n < 0xDC00 then
              match rest2 with
              | '\\' :: 'u' :: rest3 =>
                match hex4 rest3 with
                | some (m, rest4) =>
                  if 0xDC00 ≤ m ∧ m ≤ 0xDFFF then
                    (parseStrBody fuel rest4).map
                      (fun p => (Char.ofNat (0x10000 + (n - 0xD800) * 0x400 + (m - 0xDC00)) :: p.1, p.2))
                  else (parseStrBody fuel rest2).map (fun p => (Char.ofNat 0xFFFD :: p.1, p.2))
                | none => (parseStrBody fuel rest2).map (fun p => (Char.ofNat 0xFFFD :: p.1, p.2))
              | _ => (parseStrBody fuel rest2).map (fun p => (Char.ofNat 0xFFFD :: p.1, p.2))
            else
              (parseStrBody fuel rest2).map (fun p => (Char.ofNat 0xFFFD :: p.1, p.2))
        else
          match unescSimple e with
          | none => none
          | some c1 => (parseStrBody fuel rest1).map (fun p => (c1 :: p.1, p.2))
    else if c.toNat < 32 then none
    else (parseStrBody fuel rest).map (fun p => (c :: p.1, p.2))

/-- Parse of the field list of the JSON object, after the opening brace and
any whitespace, given that the object is not empty.  Field values must be
strings (the only shape the store ever writes); unknown field names are
ignored and later duplicates of key or value overwrite earlier ones, as in
the Go decoder.  Returns the decoded pair and the input after the closing
brace. -/
def parseFields : Nat → List Char → String → String → Option (KVPair × List Char)
  | 0, _, _, _ => none
  | fuel + 1, cs, k, v =>
    match cs with
    | '"' :: rest =>
      match parseStrBody rest.length rest with
      | none => none
      | some (name, r1) =>
        match skipWS r1 with
        | ':' :: r2 =>
          match skipWS r2 with
          | '"' :: r3 =>
            match parseStrBody r3.length r3 with
            | none => none
            | some (val, r4) =>
              let k1 := if String.mk name = "key" then String.mk val else k
              let v1 := if String.mk name = "value" then String.mk val else v
              match skipWS r4 with
              | ',' :: r5 => parseFields fuel (skipWS r5) k1 v1
              | '}' :: r5 => some (⟨k1, v1⟩, r5)
              | _ => none
          | _ => none
        | _ => none
    | _ => none

/-- Model of `json.Unmarshal` into the KVPair struct: a single JSON object
with string fields, surrounded by optional whitespace and nothing else.
Absent fields keep the zero value (the empty string). -/
def unmarshalKV (cs : List Char) : Option KVPair :=
  match skipWS cs with
  | '{' :: rest =>
    match skipWS rest with
    | '}' :: rest2 => if skipWS rest2 = [] then some ⟨"", ""⟩ else none
    | r1 =>
      match parseFields r1.length r1 "" "" with
      | none => none
      | some (p, rest2) => if skipWS rest2 = [] then some p else none
  | _ => none

/-- Error taxonomy of the store: a missing key, an undecodable record, or
an operating-system level storage failure (here: use after close, or end of
file while reading a record). -/
inductive DBError where
  | keyNotFound
  | encodingError
  | storageError
deriving DecidableEq, Repr

/-- In-memory index type: key to byte offset of the latest record. -/
def Idx : Type := String → Option Nat

/-- Index update, modelling assignment into the Go map. -/
def setIndex (m : Idx) (k : String) (o : Nat) : Idx :=
  fun k1 => if k1 = k then some o else m k1

/-- Index removal, modelling delete on the Go map. -/
def delIndex (m : Idx) (k : String) : Idx :=
  fun k1 => if k1 = k then none else m k1

/-- SimpleDB state: the index, the contents of the backing file, and
whether the file handle is still open.  The shared file cursor is not part
of the sequential state: every operation seeks before reading or appends at
end of file, so the cursor left by a previous operation is never observed
by a complete, non-interleaved call. -/
structure SimpleDB where
  data : Idx
  file : List Char
  isOpen : Bool

/-- Strip of one trailing carriage return, as `bufio.ScanLines` does on
every token it emits. -/
def dropCR (l : List Char) : List Char :=
  if l.getLast? = some '\r' then l.dropLast else l

/-- Core of loadIndex: a character-level transcription of scanning the file
with `bufio.Scanner`, decoding each line with `json.Unmarshal`, recording
the running offset of each line into the index, and advancing the offset by
the token length plus one.  The accumulator holds the current line in
reverse; lineStart is the offset bookkeeping value of the Go loop. -/
def scanGo (idx : Idx) (lineAcc : List Char) (lineStart : Nat) : List Char → Except DBError Idx
  | [] =>
    if lineAcc = [] then .ok idx
    else
      match unmarshalKV (dropCR lineAcc.reverse) with
      | none => .error .encodingError
      | some p => .ok (setIndex idx p.key lineStart)
  | c :: cs =>
    if c = '\n' then
      match unmarshalKV (dropCR lineAcc.reverse) with
      | none => .error .encodingError
      | some p =>
        scanGo (setIndex idx p.key lineStart)
          [] (lineStart + (dropCR lineAcc.reverse).length + 1) cs
    else scanGo idx (c :: lineAcc) lineStart cs

/-- The tokens `bufio.Scanner` emits for a byte sequence: maximal runs not
containing the delimiter, each with one trailing carriage return removed; a
final run without a terminating delimiter is still emitted. -/
def scanLinesGo (acc : List Char) : List Char → List (List Char)
  | [] => if acc = [] then [] else [dropCR acc.reverse]
  | c :: cs =>
    if c = '\n' then dropCR acc.reverse :: scanLinesGo [] cs
    else scanLinesGo (c :: acc) cs

/-- The list of records (scanner tokens) of a file. -/
def scanLines (cs : List Char) : List (List Char) := scanLinesGo [] cs

/-- OpenDB: open or create the backing file and build the index by a full
forward scan; any record that fails to decode aborts the open with the
decode error and no store is produced. -/
def OpenDB (contents : List Char) : Except DBError SimpleDB :=
  match scanGo (fun _ => none) [] 0 contents with
  | .error e => .error e
  | .ok idx => .ok { data := idx, file := contents, isOpen := true }

/-- Set: marshal the pair, seek to end of file to learn the append offset,
append the serialized record plus delimiter, then point the index entry of
the key at that offset.  The seek fails once the file handle is closed. -/
def SimpleDB.Set (db : SimpleDB) (k v : String) : Except DBError SimpleDB :=
  if db.isOpen then
    .ok { db with
            file := db.file ++ marshalKV k v ++ ['\n'],
            data := setIndex db.data k db.file.length }
  else .error .storageError

/-- Get: look the key up in the index (a miss is keyNotFound), seek to the
recorded offset (fails once closed), read forward up to and including the
next delimiter (end of file first is an io error), and decode the line. -/
def SimpleDB.Get (db : SimpleDB) (k : String) : Except DBError String :=
  match db.data k with
  | none => .error .keyNotFound
  | some off =>
    if db.isOpen then
      let tail := db.file.drop off
      let raw := tail.takeWhile (fun c => c != '\n')
      if raw.length = tail.length then .error .storageError
      else
        match unmarshalKV (raw ++ ['\n']) with
        | none => .error .encodingError
        | some p => .ok p.value
    else .error .storageError

/-- Delete: fail with keyNotFound when the key is absent from the index,
otherwise remove the index entry.  No file operation is performed. -/
def SimpleDB.Delete (db : SimpleDB) (k : String) : Except DBError SimpleDB :=
  match db.data k with
  | none => .error .keyNotFound
  | some _ => .ok { db with data := delIndex db.data k }

/-- Close: close the file handle; closing an already closed handle fails. -/
def SimpleDB.Close (db : SimpleDB) : Except DBError SimpleDB :=
  if db.isOpen then .ok { db with isOpen := false } else .error .storageError

/-- HTTP response model: only the status code matters to the claims. -/
structure HttpResponse where
  status : Nat
deriving DecidableEq, Repr

/-- The GET handler of the HTTP layer: any error from Get, of any kind,
produces the not-found status; success produces ok. -/
def handleGet (db : SimpleDB) (k : String) : HttpResponse :=
  match db.Get k with
  | .ok _ => ⟨200⟩
  | .error _ => ⟨404⟩

/-- The DELETE handler of the HTTP layer: any error from Delete produces
the not-found status; success produces ok together with the updated
store. -/
def handleDelete (db : SimpleDB) (k : String) : HttpResponse × SimpleDB :=
  match db.Delete k with
  | .ok db1 => (⟨200⟩, db1)
  | .error _ => (⟨404⟩, db)

/-- Store operations for reasoning about call sequences. -/
inductive Op where
  | set (k v : String)
  | get (k : String)
  | del (k : String)

/-- State after one operation; a failed operation leaves the state
unchanged (Set fails only before mutating, Delete fails only on a miss,
Get never mutates). -/
def applyOp (db : SimpleDB) : Op → SimpleDB
  | .set k v => match db.Set k v with | .ok db1 => db1 | .error _ => db
  | .get _ => db
  | .del k => match db.Delete k with | .ok db1 => db1 | .error _ => db

/-- State after a sequence of operations. -/
def applyOps (db : SimpleDB) (ops : List Op) : SimpleDB := ops.foldl applyOp db

/-- Encoded form of one record in the log: its serialization plus the line
delimiter. -/
def encodeRec (r : KVPair) : List Char := marshalKV r.key r.value ++ ['\n']

/-- A well-formed log file: the concatenation, in append order, of encoded
records, exactly as the data model of the spec describes the file. -/
def encodeLog : List KVPair → List Char
  | [] => []
  | r :: rs => encodeRec r ++ encodeLog rs

/-- Byte offset, relative to a base, of the start of the last record with
the given key in a record list, if any. -/
def lastOffsetAux : List KVPair → String → Nat → Option Nat
  | [], _, _ => none
  | r :: rs, k, off =>
    match lastOffsetAux rs k (off + (encodeRec r).length) with
    | some o => some o
    | none => if r.key = k then some off else none

/-- Byte offset of the start of the most recently appended record with the
given key in a well-formed log. -/
def lastOffsetOf (rs : List KVPair) (k : String) : Option Nat := lastOffsetAux rs k 0

/-- The index invariant of the store: the file is a well-formed log, and
every key present in the index points at the byte offset of the start of
the most recently appended record for that key. -/
def IndexPointsToLatest (db : SimpleDB) : Prop :=
  ∃ rs : List KVPair, db.file = encodeLog rs ∧
    ∀ k o, db.data k = some o → lastOffsetOf rs k = some o

lemma parseStrBody_hexEsc (f : Nat) (rest : List Char) (d1 d2 : Char) (n1 n2 : Nat)
    (h1 : hexVal d1 = some n1) (h2 : hexVal d2 = some n2) (hlt : n1 * 16 + n2 < 0xD800) :
    parseStrBody (f + 1) ('\\' :: 'u' :: '0' :: '0' :: d1 :: d2 :: rest)
      = (parseStrBody f rest).map (fun p => (Char.ofNat (n1 * 16 + n2) :: p.1, p.2)) := by
  have h0 : hexVal '0' = some 0 := rfl
  simp only [parseStrBody, hex4, h0, h1, h2]
  norm_num
  rw [if_pos (Or.inl hlt), if_neg (by decide : ¬('\\' = '"'))]

lemma hexVal_hexDigit (n : Nat) (h : n < 16) : hexVal (hexDigit n) = some n := by
  interval_cases n <;> decide

-- now the full per-character lemma
lemma parseStrBody_escChar (c : Char) (f : Nat) (rest : List Char) :
    parseStrBody (f + 1) (escChar c ++ rest) = (parseStrBody f rest).map (fun p => (c :: p.1, p.2)) := by
  by_cases h1 : c = '"'
  · subst h1; rfl
  by_cases h2 : c = '\\'
  · subst h2; rfl
  by_cases h3 : c = '\n'
  · subst h3; rfl
  by_cases h4 : c = '\r'
  · subst h4; rfl
  by_cases h5 : c = '\t'
  · subst h5; rfl
  by_cases h6 : c.toNat < 32
  · have hesc : escChar c = ['\\', 'u', '0', '0', hexDigit (c.toNat / 16), hexDigit (c.toNat % 16)] := by
      unfold escChar
      rw [if_neg h1, if_neg h2, if_neg h3, if_neg h4, if_neg h5, if_pos h6]
    rw [hesc]
    have := parseStrBody_hexEsc f rest _ _ (c.toNat / 16) (c.toNat % 16)
      (hexVal_hexDigit _ (by omega)) (hexVal_hexDigit _ (Nat.mod_lt _ (by omega))) (by omega)
    rw [List.cons_append, List.cons_append, List.cons_append, List.cons_append,
        List.cons_append, List.cons_append, List.nil_append] at *
    rw [this]
    have : c.toNat / 16 * 16 + c.toNat % 16 = c.toNat := Nat.div_add_mod' _ _
    rw [this, Char.ofNat_toNat]
  by_cases h7 : c = '<'
  · subst h7; rfl
  by_cases h8 : c = '>'
  · subst h8; rfl
  by_cases h9 : c = '&'
  · subst h9; rfl
  by_cases h10 : c.toNat = 0x2028
  · have hc : c = Char.ofNat 0x2028 := by rw [← h10, Char.ofNat_toNat]
    subst hc
    rfl
  by_cases h11 : c.toNat = 0x2029
  · have hc : c = Char.ofNat 0x2029 := by rw [← h11, Char.ofNat_toNat]
    subst hc
    rfl
  · have hesc : escChar c = [c] := by
      unfold escChar
      rw [if_neg h1, if_neg h2, if_neg h3, if_neg h4, if_neg h5, if_neg h6, if_neg h7,
          if_neg h8, if_neg h9, if_neg h10, if_neg h11]
    rw [hesc, List.cons_append, List.nil_append]
    simp only [parseStrBody]
    rw [if_neg h1, if_neg h2, if_neg (by omega : ¬(c.toNat < 32))]

lemma escChar_cases (c : Char) (P : List Char → Prop)
    (h1 : P ['\\', '"']) (h2 : P ['\\', '\\']) (h3 : P ['\\', 'n']) (h4 : P ['\\', 'r'])
    (h5 : P ['\\', 't'])
    (h6 : ∀ a b : Nat, a < 16 → b < 16 → P ['\\', 'u', '0', '0', hexDigit a, hexDigit b])
    (h7 : P ['\\', 'u', '0', '0', '3', 'c']) (h8 : P ['\\', 'u', '0', '0', '3', 'e'])
    (h9 : P ['\\', 'u', '0', '0', '2', '6'])
    (h10 : P ['\\', 'u', '2', '0', '2', '8']) (h11 : P ['\\', 'u', '2', '0', '2', '9'])
    (h12 : ∀ x : Char, 32 ≤ x.toNat → P [x]) : P (escChar c) := by
  unfold escChar
  by_cases e1 : c = '"'
  · rw [if_pos e1]; exact h1
  rw [if_neg e1]
  by_cases e2 : c = '\\'
  · rw [if_pos e2]; exact h2
  rw [if_neg e2]
  by_cases e3 : c = '\n'
  · rw [if_pos e3]; exact h3
  rw [if_neg e3]
  by_cases e4 : c = '\r'
  · rw [if_pos e4]; exact h4
  rw [if_neg e4]
  by_cases e5 : c = '\t'
  · rw [if_pos e5]; exact h5
  rw [if_neg e5]
  by_cases e6 : c.toNat < 32
  · rw [if_pos e6]; exact h6 _ _ (by omega) (Nat.mod_lt _ (by omega))
  rw [if_neg e6]
  by_cases e7 : c = '<'
  · rw [if_pos e7]; exact h7
  rw [if_neg e7]
  by_cases e8 : c = '>'
  · rw [if_pos e8]; exact h8
  rw [if_neg e8]
  by_cases e9 : c = '&'
  · rw [if_pos e9]; exact h9
  rw [if_neg e9]
  by_cases e10 : c.toNat = 0x2028
  · rw [if_pos e10]; exact h10
  rw [if_neg e10]
  by_cases e11 : c.toNat = 0x2029
  · rw [if_pos e11]; exact h11
  rw [if_neg e11]
  exact h12 c (by omega)

lemma hexDigit_ge (n : Nat) : 32 ≤ (hexDigit n).toNat := by
  unfold hexDigit; split <;> decide

lemma mem_escChar_ge {c x : Char} (hx : x ∈ escChar c) : 32 ≤ x.toNat := by
  revert hx
  refine escChar_cases c (fun l => x ∈ l → 32 ≤ x.toNat) ?_ ?_ ?_ ?_ ?_ ?_ ?_ ?_ ?_ ?_ ?_ ?_
  · exact fun hx => (by decide : ∀ y ∈ ['\\', '"'], 32 ≤ y.toNat) x hx
  · exact fun hx => (by decide : ∀ y ∈ ['\\', '\\'], 32 ≤ y.toNat) x hx
  · exact fun hx => (by decide : ∀ y ∈ ['\\', 'n'], 32 ≤ y.toNat) x hx
  · exact fun hx => (by decide : ∀ y ∈ ['\\', 'r'], 32 ≤ y.toNat) x hx
  · exact fun hx => (by decide : ∀ y ∈ ['\\', 't'], 32 ≤ y.toNat) x hx
  · intro a b _ _ hx
    simp only [List.mem_cons, List.not_mem_nil, or_false] at hx
    rcases hx with rfl | rfl | rfl | rfl | rfl | rfl
    · decide
    · decide
    · decide
    · decide
    · exact hexDigit_ge a
    · exact hexDigit_ge b
  · exact fun hx => (by decide : ∀ y ∈ ['\\', 'u', '0', '0', '3', 'c'], 32 ≤ y.toNat) x hx
  · exact fun hx => (by decide : ∀ y ∈ ['\\', 'u', '0', '0', '3', 'e'], 32 ≤ y.toNat) x hx
  · exact fun hx => (by decide : ∀ y ∈ ['\\', 'u', '0', '0', '2', '6'], 32 ≤ y.toNat) x hx
  · exact fun hx => (by decide : ∀ y ∈ ['\\', 'u', '2', '0', '2', '8'], 32 ≤ y.toNat) x hx
  · exact fun hx => (by decide : ∀ y ∈ ['\\', 'u', '2', '0', '2', '9'], 32 ≤ y.toNat) x hx
  · intro y hy hx
    simp only [List.mem_singleton] at hx
    subst hx
    exact hy

lemma le_length_escChar (c : Char) : 1 ≤ (escChar c).length := by
  refine escChar_cases c (fun l => 1 ≤ l.length) ?_ ?_ ?_ ?_ ?_ ?_ ?_ ?_ ?_ ?_ ?_ ?_
  all_goals
    first
      | decide
      | (intro a b h1 h2; simp only [List.length_cons, List.length_nil]; omega)
      | (intro x hx; simp only [List.length_cons, List.length_nil]; omega)

lemma le_length_escStr (s : List Char) : s.length ≤ (escStr s).length := by
  induction s with
  | nil => simp [escStr]
  | cons c s ih =>
    rw [escStr, List.length_append, List.length_cons]
    have := le_length_escChar c
    omega

lemma mem_escStr_ge {s : List Char} {x : Char} (hx : x ∈ escStr s) : 32 ≤ x.toNat := by
  induction s with
  | nil => simp [escStr] at hx
  | cons c s ih =>
    rw [escStr, List.mem_append] at hx
    rcases hx with hx | hx
    · exact mem_escChar_ge hx
    · exact ih hx

lemma parseStrBody_escStr (s : List Char) : ∀ (fuel : Nat) (rest : List Char), s.length + 1 ≤ fuel →
    parseStrBody fuel (escStr s ++ '"' :: rest) = some (s, rest) := by
  induction s with
  | nil =>
    intro fuel rest h
    match fuel, h with
    | f + 1, _ => rfl
  | cons c s ih =>
    intro fuel rest h
    match fuel, h with
    | f + 1, h =>
      rw [escStr, List.append_assoc, parseStrBody_escChar,
        ih f rest (by simp only [List.length_cons] at h; omega)]
      rfl

lemma skipWS_cons {c : Char} (l : List Char) (h : isWS c = false) : skipWS (c :: l) = c :: l := by
  simp [skipWS, List.dropWhile_cons, h]

lemma parseFields_valueFld (v : String) (kA vA : String) (tail : List Char) (fuel : Nat) :
    parseFields (fuel + 1)
      ('"' :: ('v' :: 'a' :: 'l' :: 'u' :: 'e' :: '"' :: (':' :: '"' :: (escStr v.data ++ '"' :: '}' :: tail)))) kA vA
      = some (⟨kA, v⟩, tail) := by
  have hrw : ('v' :: 'a' :: 'l' :: 'u' :: 'e' :: '"' :: (':' :: '"' :: (escStr v.data ++ '"' :: '}' :: tail)))
      = escStr ['v', 'a', 'l', 'u', 'e'] ++ '"' :: (':' :: '"' :: (escStr v.data ++ '"' :: '}' :: tail)) := rfl
  have h5 : (escStr ['v', 'a', 'l', 'u', 'e']).length = 5 := rfl
  simp only [parseFields]
  rw [hrw, parseStrBody_escStr ['v', 'a', 'l', 'u', 'e'] _ _ (by
    simp only [List.length_append, List.length_cons, List.length_nil, h5]
    omega)]
  simp only
  rw [skipWS_cons _ (by decide)]
  simp only
  rw [skipWS_cons _ (by decide)]
  simp only
  rw [parseStrBody_escStr v.data _ _ (by
    have := le_length_escStr v.data
    simp only [List.length_append, List.length_cons, List.length_nil]
    omega)]
  simp only
  rw [skipWS_cons _ (by decide)]
  rfl

lemma parseFields_keyFld (k v : String) (tail : List Char) (fuel : Nat) (h : 2 ≤ fuel) :
    parseFields fuel
      ('"' :: ('k' :: 'e' :: 'y' :: '"' :: (':' :: '"' ::
        (escStr k.data ++ '"' :: ',' ::
          ('"' :: ('v' :: 'a' :: 'l' :: 'u' :: 'e' :: '"' :: (':' :: '"' ::
            (escStr v.data ++ '"' :: '}' :: tail)))))))) "" ""
      = some (⟨k, v⟩, tail) := by
  obtain ⟨f, rfl⟩ : ∃ f, fuel = f + 2 := ⟨fuel - 2, by omega⟩
  have hrw : ('k' :: 'e' :: 'y' :: '"' :: (':' :: '"' ::
        (escStr k.data ++ '"' :: ',' ::
          ('"' :: ('v' :: 'a' :: 'l' :: 'u' :: 'e' :: '"' :: (':' :: '"' ::
            (escStr v.data ++ '"' :: '}' :: tail)))))))
      = escStr ['k', 'e', 'y'] ++ '"' :: (':' :: '"' ::
        (escStr k.data ++ '"' :: ',' ::
          ('"' :: ('v' :: 'a' :: 'l' :: 'u' :: 'e' :: '"' :: (':' :: '"' ::
            (escStr v.data ++ '"' :: '}' :: tail)))))) := rfl
  have h3 : (escStr ['k', 'e', 'y']).length = 3 := rfl
  rw [parseFields]
  rw [hrw, parseStrBody_escStr ['k', 'e', 'y'] _ _ (by
    simp only [List.length_append, List.length_cons, List.length_nil, h3]
    omega)]
  simp only
  rw [skipWS_cons _ (by decide)]
  simp only
  rw [skipWS_cons _ (by decide)]
  simp only
  rw [parseStrBody_escStr k.data _ _ (by
    have := le_length_escStr k.data
    simp only [List.length_append, List.length_cons, List.length_nil]
    omega)]
  simp only
  rw [skipWS_cons _ (by decide)]
  simp only
  rw [skipWS_cons _ (by decide)]
  rw [parseFields_valueFld]
  rfl

lemma unmarshalKV_marshal_append (k v : String) (tail : List Char) (ht : skipWS tail = []) :
    unmarshalKV (marshalKV k v ++ tail) = some ⟨k, v⟩ := by
  have hsh : marshalKV k v ++ tail
      = '{' :: ('"' :: 'k' :: 'e' :: 'y' :: '"' :: ':' :: '"' ::
          (escStr k.data ++ '"' :: ',' ::
            ('"' :: ('v' :: 'a' :: 'l' :: 'u' :: 'e' :: '"' :: (':' :: '"' ::
              (escStr v.data ++ '"' :: '}' :: tail)))))) := by
    simp only [marshalKV, List.append_assoc, List.cons_append, List.nil_append]
  rw [hsh]
  simp only [unmarshalKV]
  rw [skipWS_cons _ (by decide)]
  simp only
  rw [skipWS_cons _ (by decide)]
  split
  next heq => exact absurd heq (by simp)
  next =>
    rw [parseFields_keyFld k v tail _ (by
      simp only [List.length_append, List.length_cons, List.length_nil]
      omega)]
    simp only [ht]
    rfl

lemma unmarshalKV_marshal (k v : String) : unmarshalKV (marshalKV k v) = some ⟨k, v⟩ := by
  have := unmarshalKV_marshal_append k v [] rfl
  rwa [List.append_nil] at this

lemma unmarshalKV_marshal_newline (k v : String) :
    unmarshalKV (marshalKV k v ++ ['\n']) = some ⟨k, v⟩ :=
  unmarshalKV_marshal_append k v ['\n'] rfl

lemma mem_of_getLast?_eq {l : List Char} {a : Char} (h : l.getLast? = some a) : a ∈ l := by
  induction l with
  | nil => simp at h
  | cons c cs ih =>
    cases cs with
    | nil => simp_all
    | cons d ds =>
      rw [List.getLast?_cons_cons] at h
      exact List.mem_cons_of_mem _ (ih h)

lemma dropCR_eq_self {l : List Char} (h : '\r' ∉ l) : dropCR l = l := by
  unfold dropCR
  split
  next hlast => exact absurd (mem_of_getLast?_eq hlast) h
  next => rfl

lemma mem_marshalKV_ge {k v : String} {x : Char} (hx : x ∈ marshalKV k v) : 32 ≤ x.toNat := by
  unfold marshalKV at hx
  rcases List.mem_append.1 hx with h | h
  case inr => exact (by decide : ∀ y ∈ ['"', '}'], 32 ≤ y.toNat) x h
  rcases List.mem_append.1 h with h | h
  case inr => exact mem_escStr_ge h
  rcases List.mem_append.1 h with h | h
  case inr =>
    exact (by decide : ∀ y ∈ ['"', ',', '"', 'v', 'a', 'l', 'u', 'e', '"', ':', '"'], 32 ≤ y.toNat) x h
  rcases List.mem_append.1 h with h | h
  case inr => exact mem_escStr_ge h
  case inl => exact (by decide : ∀ y ∈ ['{', '"', 'k', 'e', 'y', '"', ':', '"'], 32 ≤ y.toNat) x h

lemma newline_not_mem_marshalKV (k v : String) : '\n' ∉ marshalKV k v := fun hx =>
  absurd (mem_marshalKV_ge hx) (by decide)

lemma cr_not_mem_marshalKV (k v : String) : '\r' ∉ marshalKV k v := fun hx =>
  absurd (mem_marshalKV_ge hx) (by decide)

lemma dropCR_marshalKV (k v : String) : dropCR (marshalKV k v) = marshalKV k v :=
  dropCR_eq_self (cr_not_mem_marshalKV k v)

lemma takeWhile_append_newline {l : List Char} (tail : List Char) (hl : '\n' ∉ l) :
    (l ++ '\n' :: tail).takeWhile (fun c => c != '\n') = l := by
  induction l with
  | nil => simp
  | cons c cs ih =>
    have hc : c ≠ '\n' := fun h => hl (by simp [h])
    have hcs : '\n' ∉ cs := fun h => hl (List.mem_cons_of_mem _ h)
    simp only [List.cons_append, List.takeWhile_cons]
    rw [if_pos (by simp [hc]), ih hcs]

lemma drop_append_newline {l : List Char} (tail : List Char) :
    (l ++ '\n' :: tail).drop (l.length + 1) = tail := by
  rw [← List.drop_drop, List.drop_left]
  rfl

-- the core of claim C1: after a successful Set, Get immediately returns the value
lemma Get_after_Set {db db' : SimpleDB} {k v : String} (h : db.Set k v = .ok db') :
    db'.Get k = .ok v := by
  unfold SimpleDB.Set at h
  by_cases hopen : db.isOpen
  · rw [if_pos hopen] at h
    rw [Except.ok.injEq] at h
    subst h
    unfold SimpleDB.Get
    have hidx : setIndex db.data k db.file.length k = some db.file.length := by
      unfold setIndex
      rw [if_pos rfl]
    simp only [hidx]
    rw [if_pos hopen]
    have hdrop : (db.file ++ (marshalKV k v ++ ['\n'])).drop db.file.length
        = marshalKV k v ++ ['\n'] := List.drop_left _ _
    simp only [List.append_assoc] at hdrop ⊢
    rw [hdrop]
    have hnl : (marshalKV k v ++ ['\n']) = marshalKV k v ++ '\n' :: [] := rfl
    rw [hnl, takeWhile_append_newline _ (newline_not_mem_marshalKV k v)]
    rw [if_neg (by
      simp only [List.length_append, List.length_cons, List.length_nil]
      omega)]
    rw [show marshalKV k v ++ '\n' :: [] = marshalKV k v ++ ['\n'] from rfl,
      unmarshalKV_marshal_newline]
  · rw [if_neg hopen] at h
    exact absurd h (by simp)

lemma setIndex_self (m : Idx) (k : String) (o : Nat) : setIndex m k o k = some o := by
  unfold setIndex; rw [if_pos rfl]

lemma setIndex_ne (m : Idx) (k : String) (o : Nat) {k1 : String} (h : k1 ≠ k) :
    setIndex m k o k1 = m k1 := by
  unfold setIndex; rw [if_neg h]

lemma delIndex_self (m : Idx) (k : String) : delIndex m k k = none := by
  unfold delIndex; rw [if_pos rfl]

lemma delIndex_ne (m : Idx) (k : String) {k1 : String} (h : k1 ≠ k) :
    delIndex m k k1 = m k1 := by
  unfold delIndex; rw [if_neg h]

lemma Get_of_absent {db : SimpleDB} {k : String} (h : db.data k = none) :
    db.Get k = .error .keyNotFound := by
  unfold SimpleDB.Get
  rw [h]

lemma Delete_ok_iff {db db' : SimpleDB} {k : String} :
    db.Delete k = .ok db' ↔ (∃ o, db.data k = some o) ∧ db' = { db with data := delIndex db.data k } := by
  unfold SimpleDB.Delete
  cases hd : db.data k with
  | none => simp
  | some o =>
    simp only [Except.ok.injEq]
    constructor
    · intro h; exact ⟨⟨o, rfl⟩, h.symm⟩
    · intro ⟨_, h⟩; exact h.symm

lemma absent_after_op {db : SimpleDB} {k : String} (h : db.data k = none) (op : Op)
    (hop : ∀ v, op ≠ Op.set k v) : (applyOp db op).data k = none := by
  cases op with
  | set k1 v1 =>
    have hk : k ≠ k1 := fun he => hop v1 (by rw [he])
    simp only [applyOp, SimpleDB.Set]
    by_cases ho : db.isOpen
    · rw [if_pos ho]
      show setIndex db.data k1 db.file.length k = none
      rw [setIndex_ne _ _ _ hk]
      exact h
    · rw [if_neg ho]
      exact h
  | get _ => exact h
  | del k1 =>
    simp only [applyOp, SimpleDB.Delete]
    cases hd : db.data k1 with
    | none => exact h
    | some o =>
      show delIndex db.data k1 k = none
      by_cases hk : k = k1
      · subst hk; exact delIndex_self _ _
      · rw [delIndex_ne _ _ hk]; exact h

lemma absent_after_ops {db : SimpleDB} {k : String} (h : db.data k = none) (ops : List Op)
    (hops : ∀ v, Op.set k v ∉ ops) : (applyOps db ops).data k = none := by
  induction ops generalizing db with
  | nil => exact h
  | cons op ops ih =>
    have h1 : (applyOp db op).data k = none :=
      absent_after_op h op (fun v he => hops v (by rw [he]; exact List.mem_cons_self _ _))
    exact ih h1 (fun v hv => hops v (List.mem_cons_of_mem _ hv))

lemma scanGo_chunk (l : List Char) : ∀ (idx : Idx) (acc : List Char) (st : Nat) (cs : List Char),
    '\n' ∉ l → scanGo idx acc st (l ++ cs) = scanGo idx (l.reverse ++ acc) st cs := by
  induction l with
  | nil => intro idx acc st cs _; rfl
  | cons c l ih =>
    intro idx acc st cs hl
    have hc : c ≠ '\n' := fun h => hl (by simp [h])
    have hl2 : '\n' ∉ l := fun h => hl (List.mem_cons_of_mem _ h)
    simp only [List.cons_append, scanGo]
    rw [if_neg hc]
    show scanGo idx (c :: acc) st (l ++ cs) = scanGo idx ((c :: l).reverse ++ acc) st cs
    rw [ih _ _ _ _ hl2]
    simp [List.append_assoc]

lemma encodeRec_length (r : KVPair) :
    (encodeRec r).length = (marshalKV r.key r.value).length + 1 := by
  simp [encodeRec]

lemma scanGo_encodeLog : ∀ (rs : List KVPair) (idx : Idx) (st : Nat),
    scanGo idx [] st (encodeLog rs)
      = .ok (fun k => match lastOffsetAux rs k st with
          | some o => some o
          | none => idx k) := by
  intro rs
  induction rs with
  | nil => intro idx st; rfl
  | cons r rs ih =>
    intro idx st
    rw [encodeLog, show encodeRec r = marshalKV r.key r.value ++ ['\n'] from rfl,
      List.append_assoc, show ['\n'] ++ encodeLog rs = '\n' :: encodeLog rs from rfl,
      scanGo_chunk _ _ _ _ _ (newline_not_mem_marshalKV _ _)]
    simp only [List.append_nil, scanGo]
    rw [if_pos trivial, List.reverse_reverse, dropCR_marshalKV, unmarshalKV_marshal]
    simp only
    rw [ih]
    congr 1
    funext k
    simp only [lastOffsetAux, encodeRec_length, ← Nat.add_assoc]
    cases hA : lastOffsetAux rs k (st + (marshalKV r.key r.value).length + 1) with
    | some o => rfl
    | none =>
      by_cases hk : k = r.key
      · subst hk
        rw [if_pos rfl, setIndex_self]
      · rw [if_neg (fun h => hk h.symm), setIndex_ne _ _ _ hk]

lemma OpenDB_encodeLog (rs : List KVPair) :
    ∃ db₀, OpenDB (encodeLog rs) = .ok db₀ ∧ db₀.file = encodeLog rs ∧ db₀.isOpen = true ∧
      ∀ k, db₀.data k = lastOffsetOf rs k := by
  unfold OpenDB
  rw [scanGo_encodeLog]
  refine ⟨_, rfl, rfl, rfl, fun k => ?_⟩
  unfold lastOffsetOf
  show (match lastOffsetAux rs k 0 with | some o => some o | none => (none : Option Nat))
      = lastOffsetAux rs k 0
  cases lastOffsetAux rs k 0 <;> rfl

lemma encodeLog_append (rs rs' : List KVPair) :
    encodeLog (rs ++ rs') = encodeLog rs ++ encodeLog rs' := by
  induction rs with
  | nil => simp [encodeLog]
  | cons r rs ih => simp [encodeLog, ih, List.append_assoc]

lemma lastOffsetAux_append_single (rs : List KVPair) (r : KVPair) (k : String) :
    ∀ off, lastOffsetAux (rs ++ [r]) k off
      = if r.key = k then some (off + (encodeLog rs).length) else lastOffsetAux rs k off := by
  induction rs with
  | nil =>
    intro off
    simp [lastOffsetAux, encodeLog]
  | cons r' rs ih =>
    intro off
    simp only [List.cons_append, lastOffsetAux, List.append_eq, ih]
    by_cases hr : r.key = k
    · rw [if_pos hr, if_pos hr]
      simp only [encodeLog, List.length_append]
      rw [Nat.add_assoc]
    · rw [if_neg hr, if_neg hr]

lemma inv_applyOp {db : SimpleDB} (hInv : IndexPointsToLatest db) (op : Op) :
    IndexPointsToLatest (applyOp db op) := by
  obtain ⟨rs, hfile, hidx⟩ := hInv
  cases op with
  | get _ => exact ⟨rs, hfile, hidx⟩
  | del k =>
    simp only [applyOp, SimpleDB.Delete]
    cases hd : db.data k with
    | none => exact ⟨rs, hfile, hidx⟩
    | some o =>
      show IndexPointsToLatest { db with data := delIndex db.data k }
      refine ⟨rs, hfile, fun k1 o1 h1 => ?_⟩
      replace h1 : delIndex db.data k k1 = some o1 := h1
      by_cases hk : k1 = k
      · subst hk
        rw [delIndex_self] at h1
        exact absurd h1 (by simp)
      · rw [delIndex_ne _ _ hk] at h1
        exact hidx k1 o1 h1
  | set k v =>
    simp only [applyOp, SimpleDB.Set]
    by_cases ho : db.isOpen
    · rw [if_pos ho]
      show IndexPointsToLatest
        { db with file := db.file ++ marshalKV k v ++ ['\n'],
                  data := setIndex db.data k db.file.length }
      refine ⟨rs ++ [⟨k, v⟩], ?_, ?_⟩
      · show db.file ++ marshalKV k v ++ ['\n'] = encodeLog (rs ++ [⟨k, v⟩])
        rw [encodeLog_append, hfile]
        simp [encodeLog, encodeRec, List.append_assoc]
      · intro k1 o1 h1
        replace h1 : setIndex db.data k db.file.length k1 = some o1 := h1
        unfold lastOffsetOf
        rw [lastOffsetAux_append_single]
        by_cases hk : k1 = k
        · subst hk
          rw [setIndex_self] at h1
          rw [Option.some.injEq] at h1
          rw [if_pos rfl, Nat.zero_add, ← h1, hfile]
        · rw [setIndex_ne _ _ _ hk] at h1
          rw [if_neg (show (⟨k, v⟩ : KVPair).key ≠ k1 from fun h => hk h.symm)]
          exact hidx k1 o1 h1
    · rw [if_neg ho]
      exact ⟨rs, hfile, hidx⟩

lemma inv_applyOps {db : SimpleDB} (hInv : IndexPointsToLatest db) (ops : List Op) :
    IndexPointsToLatest (applyOps db ops) := by
  induction ops generalizing db with
  | nil => exact hInv
  | cons op ops ih => exact ih (inv_applyOp hInv op)

lemma inv_OpenDB (rs : List KVPair) {db₀ : SimpleDB} (h : OpenDB (encodeLog rs) = .ok db₀) :
    IndexPointsToLatest db₀ := by
  obtain ⟨db₁, h1, hfile, _, hdata⟩ := OpenDB_encodeLog rs
  rw [h1, Except.ok.injEq] at h
  subst h
  exact ⟨rs, hfile, fun k o hk => by rw [← hdata k]; exact hk⟩

lemma scanGo_error_of_bad : ∀ (cs : List Char) (idx : Idx) (acc : List Char) (st : Nat),
    (∃ l ∈ scanLinesGo acc cs, unmarshalKV l = none) →
      scanGo idx acc st cs = .error .encodingError := by
  intro cs
  induction cs with
  | nil =>
    intro idx acc st ⟨l, hl, hbad⟩
    unfold scanLinesGo at hl
    by_cases ha : acc = []
    · rw [if_pos ha] at hl
      simp at hl
    · rw [if_neg ha] at hl
      simp only [List.mem_singleton] at hl
      subst hl
      unfold scanGo
      rw [if_neg ha, hbad]
  | cons c cs ih =>
    intro idx acc st ⟨l, hl, hbad⟩
    unfold scanLinesGo at hl
    unfold scanGo
    by_cases hc : c = '\n'
    · rw [if_pos hc] at hl
      rw [if_pos hc]
      rcases List.mem_cons.1 hl with rfl | hl2
      · rw [hbad]
      · cases hu : unmarshalKV (dropCR acc.reverse) with
        | none => rfl
        | some p => exact ih _ _ _ ⟨l, hl2, hbad⟩
    · rw [if_neg hc] at hl
      rw [if_neg hc]
      exact ih _ _ _ ⟨l, hl, hbad⟩

lemma OpenDB_error_of_bad (cs : List Char) (h : ∃ l ∈ scanLines cs, unmarshalKV l = none) :
    OpenDB cs = .error .encodingError := by
  unfold OpenDB
  rw [scanGo_error_of_bad cs _ [] 0 h]

-- Concrete sample states used by the witnesses.

/-- Freshly opened store over an empty file. -/
def dbW0 : SimpleDB := { data := fun _ => none, file := [], isOpen := true }

/-- State of dbW0 after a successful Set of key a to value 1. -/
def dbW1 : SimpleDB :=
  { data := setIndex (fun _ => none) "a" 0, file := marshalKV "a" "1" ++ ['\n'], isOpen := true }

/-- State of dbW1 after a successful Delete of key a. -/
def dbW2 : SimpleDB :=
  { data := delIndex (setIndex (fun _ => none) "a" 0) "a",
    file := marshalKV "a" "1" ++ ['\n'], isOpen := true }

/-- State of dbW1 after Close: the index still holds key a, the handle is
closed. -/
def dbW1closed : SimpleDB :=
  { data := setIndex (fun _ => none) "a" 0, file := marshalKV "a" "1" ++ ['\n'], isOpen := false }

/-- C1: for every key k and value v, if Set(k, v) succeeds on an open store,
an immediately following Get(k) succeeds and returns v. -/
theorem c1_set_then_get (db db' : SimpleDB) (k v : String) (h : db.Set k v = .ok db') :
    db'.Get k = .ok v :=
  Get_after_Set h

/-- Witness for C1 at a concrete store: setting a to 1 on the empty open
store succeeds, and the resulting store answers Get a with 1. -/
theorem c1_set_then_get_witness : SimpleDB.Get dbW1 "a" = .ok "1" :=
  c1_set_then_get dbW0 dbW1 "a" "1" rfl

/-- C2: after Delete(k) succeeds, every Get(k) fails with keyNotFound
across any further sequence of operations that contains no Set(k, _). -/
theorem c2_delete_then_get (db db' : SimpleDB) (k : String) (h : db.Delete k = .ok db')
    (ops : List Op) (hops : ∀ v, Op.set k v ∉ ops) :
    (applyOps db' ops).Get k = .error .keyNotFound := by
  obtain ⟨⟨o, _⟩, rfl⟩ := Delete_ok_iff.1 h
  have habs : ({ db with data := delIndex db.data k } : SimpleDB).data k = none :=
    delIndex_self _ _
  exact Get_of_absent (absent_after_ops habs ops hops)

/-- Witness for C2 at a concrete store: after deleting a, a Set of another
key and a Get do not resurrect a, and Get a reports keyNotFound. -/
theorem c2_delete_then_get_witness :
    (applyOps dbW2 [Op.set "b" "2", Op.get "a"]).Get "a" = .error .keyNotFound :=
  c2_delete_then_get dbW1 dbW2 "a" rfl [Op.set "b" "2", Op.get "a"]
    (by intro v hv; simp [Op.set.injEq] at hv)

/-- C3: in every store state reachable by opening a well-formed log (a
concatenation of delimiter-terminated records, as the data model defines
the log) followed by any sequence of Set, Get and Delete calls, every key
present in the index maps to the byte offset of the start of the most
recently appended record for that key, and each operation preserves this
invariant. -/
theorem c3_index_points_to_latest (rs₀ : List KVPair) (db₀ : SimpleDB) (ops : List Op)
    (hopen : OpenDB (encodeLog rs₀) = .ok db₀) :
    IndexPointsToLatest (applyOps db₀ ops) :=
  inv_applyOps (inv_OpenDB rs₀ hopen) ops

/-- Witness for C3: opening the empty log and running one Set keeps the
index pointing at the latest record of each key. -/
theorem c3_index_points_to_latest_witness :
    IndexPointsToLatest (applyOps dbW0 [Op.set "a" "1"]) :=
  c3_index_points_to_latest [] dbW0 [Op.set "a" "1"] rfl

/-- C4: starting from an empty file, Set a to 1, Delete a, Close, reopening
the same file and calling Get a returns 1: the deletion does not survive
reopen, it does not fail with keyNotFound. -/
theorem c4_delete_not_durable :
    (do
      let db ← OpenDB []
      let db ← db.Set "a" "1"
      let db ← db.Delete "a"
      let db ← db.Close
      let db2 ← OpenDB db.file
      db2.Get "a" : Except DBError String) = .ok "1" := by
  rfl

/-- C5: if any record in the file fails to decode during the forward scan
of open, OpenDB fails with the decode error and no store is returned. -/
theorem c5_decode_failure_aborts_open (cs : List Char)
    (h : ∃ l ∈ scanLines cs, unmarshalKV l = none) :
    OpenDB cs = .error .encodingError :=
  OpenDB_error_of_bad cs h

/-- Witness for C5: a file holding one undecodable line cannot be opened. -/
theorem c5_decode_failure_aborts_open_witness : OpenDB ['x', '\n'] = .error .encodingError :=
  c5_decode_failure_aborts_open ['x', '\n'] ⟨['x'], by decide, by decide⟩

/-- Store with key a in the index but a closed file handle; Get then fails
with storageError, not keyNotFound. -/
def dbClosedA : SimpleDB := dbW1closed

/-- C6 as stated is false: the lookup handler maps every error from Get,
including storage errors, to the not-found response, never to a server
error.  The counterexample evaluates the handler on a store whose Get
fails with storageError and observes status 404 instead of 500. -/
theorem c6_counterexample :
    ¬ (∀ (db : SimpleDB) (k : String) (e : DBError),
        db.Get k = .error e → e ≠ DBError.keyNotFound → (handleGet db k).status = 500) := by
  intro hcl
  have h1 : dbClosedA.Get "a" = .error .storageError := rfl
  have h2 := hcl dbClosedA "a" .storageError h1 (by decide)
  have h3 : (handleGet dbClosedA "a").status = 404 := rfl
  rw [h3] at h2
  exact absurd h2 (by decide)

/-- C6 amended: the lookup handler translates every error from Get -
keyNotFound, storage or decode failure alike - into the not-found
response, and the deletion handler translates every error from Delete the
same way. -/
theorem c6_handlers_amended :
    (∀ (db : SimpleDB) (k : String) (e : DBError),
        db.Get k = .error e → (handleGet db k).status = 404)
    ∧ (∀ (db : SimpleDB) (k : String) (e : DBError),
        db.Delete k = .error e → (handleDelete db k).1.status = 404) := by
  constructor
  · intro db k e h
    unfold handleGet
    rw [h]
  · intro db k e h
    unfold handleDelete
    rw [h]

/-- Witness for the amended C6: on the closed store, Get fails with
storageError and the handler answers 404. -/
theorem c6_handlers_amended_witness :
    SimpleDB.Get dbClosedA "a" = .error .storageError ∧ (handleGet dbClosedA "a").status = 404 :=
  ⟨rfl, c6_handlers_amended.1 dbClosedA "a" .storageError rfl⟩

/-- C7: for every key k present in the index, Delete(k) succeeds and
removes only the index entry for k: the log file and the open flag are
unchanged, and the index entry of every other key is unchanged. -/
theorem c7_delete_frame (db : SimpleDB) (k : String) (o : Nat) (h : db.data k = some o) :
    ∃ db', db.Delete k = .ok db' ∧ db'.file = db.file ∧ db'.isOpen = db.isOpen ∧
      db'.data k = none ∧ ∀ k1, k1 ≠ k → db'.data k1 = db.data k1 := by
  refine ⟨{ db with data := delIndex db.data k }, ?_, rfl, rfl,
    delIndex_self _ _, fun k1 h1 => delIndex_ne _ _ h1⟩
  unfold SimpleDB.Delete
  rw [h]

/-- Witness for C7 at a concrete store holding key a. -/
theorem c7_delete_frame_witness :
    SimpleDB.data dbW1 "a" = some 0 ∧
      ∃ db', dbW1.Delete "a" = .ok db' ∧ db'.file = dbW1.file ∧ db'.isOpen = dbW1.isOpen ∧
        db'.data "a" = none ∧ ∀ k1, k1 ≠ "a" → db'.data k1 = dbW1.data k1 :=
  ⟨rfl, c7_delete_frame dbW1 "a" 0 rfl⟩

/-- C8: for every key and value, including strings containing the line
delimiter, the record written by Set contains no raw delimiter byte, the
scanner token of the record is the record itself, and decoding - both the
bare record as the open-time scan sees it and the delimiter-terminated
line as Get reads it - returns exactly the original pair. -/
theorem c8_record_roundtrip (k v : String) :
    '\n' ∉ marshalKV k v ∧ dropCR (marshalKV k v) = marshalKV k v ∧
      unmarshalKV (marshalKV k v) = some ⟨k, v⟩ ∧
      unmarshalKV (marshalKV k v ++ ['\n']) = some ⟨k, v⟩ :=
  ⟨newline_not_mem_marshalKV k v, dropCR_marshalKV k v,
    unmarshalKV_marshal k v, unmarshalKV_marshal_newline k v⟩

/-- C10: the outcome of Delete depends only on the presence of the key in
the in-memory index, never on the file: for any file contents and any
open flag - in particular after Close - Delete(k) succeeds on a key
present in the index and removes the entry, performing no file
operation. -/
theorem c10_delete_ignores_file (db : SimpleDB) (k : String) (o : Nat) (h : db.data k = some o) :
    (∀ (b : Bool) (f : List Char),
        SimpleDB.Delete { data := db.data, file := f, isOpen := b } k
          = .ok { data := delIndex db.data k, file := f, isOpen := b })
    ∧ (∀ db', db.Close = .ok db' →
        db'.Delete k = .ok { data := delIndex db.data k, file := db.file, isOpen := false }) := by
  constructor
  · intro b f
    simp only [SimpleDB.Delete, h]
  · intro db' hc
    unfold SimpleDB.Close at hc
    by_cases ho : db.isOpen
    · rw [if_pos ho, Except.ok.injEq] at hc
      subst hc
      simp only [SimpleDB.Delete, h]
    · rw [if_neg ho] at hc
      exact absurd hc (by simp)

/-- Witness for C10: after closing the store that holds key a, Delete a
still succeeds and removes the entry. -/
theorem c10_delete_ignores_file_witness :
    SimpleDB.Delete dbW1closed "a"
      = .ok { data := delIndex (setIndex (fun _ => none) "a" 0) "a",
              file := marshalKV "a" "1" ++ ['\n'], isOpen := false } :=
  ((c10_delete_ignores_file dbW1 "a" 0 rfl).2 dbW1closed rfl)

namespace Conc

/-- Shared state guarded by the reader-writer gate: the gate itself
(reader count and writer flag), the in-memory index, the file contents and
the shared file cursor of the single file handle. -/
structure Shared where
  readers : Nat
  writer : Bool
  index : Idx
  file : List Char
  cursor : Nat

/-- Control point of one thread running Get, Set or Delete, mirroring the
statement sequence of the Go methods.  Get: acquire shared, look up the
index, seek, read, release.  Set: acquire exclusive, seek to end, write
the record bytes (split in two steps to expose intermediate states),
update the index and release.  Delete: acquire exclusive, check and remove
the index entry, release. -/
inductive TState where
  | gIdle (k : String)
  | gLocked (k : String)
  | gLooked (k : String) (off : Nat)
  | gSeeked (k : String) (off : Nat)
  | sIdle (k v : String)
  | sLocked (k v : String)
  | sSeeked (k v : String) (off : Nat)
  | sHalf (k v : String) (off : Nat)
  | sWritten (k v : String) (off : Nat)
  | dIdle (k : String)
  | dLocked (k : String)
  | done
deriving DecidableEq

/-- First half of the record bytes a Set appends. -/
def recHalfA (k v : String) : List Char :=
  (marshalKV k v).take ((marshalKV k v).length / 2)

/-- Remaining record bytes plus the delimiter. -/
def recHalfB (k v : String) : List Char :=
  (marshalKV k v).drop ((marshalKV k v).length / 2) ++ ['\n']

/-- One atomic step of a single thread against the shared state.  Acquiring
the gate in shared mode only requires the absence of a writer; acquiring it
in exclusive mode requires no readers and no writer, as with the Go
RWMutex. -/
inductive TTrans : Shared → TState → Shared → TState → Prop where
  | gAcquire (s : Shared) (k : String) : s.writer = false →
      TTrans s (.gIdle k) { s with readers := s.readers + 1 } (.gLocked k)
  | gLookupHit (s : Shared) (k : String) (o : Nat) : s.index k = some o →
      TTrans s (.gLocked k) s (.gLooked k o)
  | gLookupMiss (s : Shared) (k : String) : s.index k = none →
      TTrans s (.gLocked k) { s with readers := s.readers - 1 } .done
  | gSeek (s : Shared) (k : String) (o : Nat) :
      TTrans s (.gLooked k o) { s with cursor := o } (.gSeeked k o)
  | gRead (s : Shared) (k : String) (o : Nat) :
      TTrans s (.gSeeked k o) { s with readers := s.readers - 1 } .done
  | sAcquire (s : Shared) (k v : String) : s.readers = 0 → s.writer = false →
      TTrans s (.sIdle k v) { s with writer := true } (.sLocked k v)
  | sSeekEnd (s : Shared) (k v : String) :
      TTrans s (.sLocked k v)
        { s with cursor := s.file.length } (.sSeeked k v s.file.length)
  | sWriteA (s : Shared) (k v : String) (o : Nat) :
      TTrans s (.sSeeked k v o) { s with file := s.file ++ recHalfA k v } (.sHalf k v o)
  | sWriteB (s : Shared) (k v : String) (o : Nat) :
      TTrans s (.sHalf k v o) { s with file := s.file ++ recHalfB k v } (.sWritten k v o)
  | sUpdate (s : Shared) (k v : String) (o : Nat) :
      TTrans s (.sWritten k v o)
        { s with index := setIndex s.index k o, writer := false } .done
  | dAcquire (s : Shared) (k : String) : s.readers = 0 → s.writer = false →
      TTrans s (.dIdle k) { s with writer := true } (.dLocked k)
  | dHit (s : Shared) (k : String) (o : Nat) : s.index k = some o →
      TTrans s (.dLocked k) { s with index := delIndex s.index k, writer := false } .done
  | dMiss (s : Shared) (k : String) : s.index k = none →
      TTrans s (.dLocked k) { s with writer := false } .done

/-- Interleaving step: some thread of the pool takes one atomic step. -/
inductive Step : Shared × List TState → Shared × List TState → Prop where
  | mk (pre post : List TState) (s s' : Shared) (t t' : TState) :
      TTrans s t s' t' → Step (s, pre ++ t :: post) (s', pre ++ t' :: post)

/-- Reachability along any interleaving. -/
def Reach : Shared × List TState → Shared × List TState → Prop :=
  Relation.ReflTransGen Step

/-- Thread states that hold the gate in shared mode. -/
def isReader : TState → Bool
  | .gLocked _ => true
  | .gLooked _ _ => true
  | .gSeeked _ _ => true
  | _ => false

/-- Thread states that hold the gate in exclusive mode. -/
def isWriter : TState → Bool
  | .sLocked _ _ => true
  | .sSeeked _ _ _ => true
  | .sHalf _ _ _ => true
  | .sWritten _ _ _ => true
  | .dLocked _ => true
  | _ => false

/-- Thread states outside any critical section. -/
def isIdle : TState → Bool
  | .gIdle _ => true
  | .sIdle _ _ => true
  | .dIdle _ => true
  | .done => true
  | _ => false

/-- The protocol invariant: the reader count of the gate counts exactly the
threads holding it in shared mode, the writer flag is set exactly when one
thread holds it exclusively, a held writer excludes all readers, and the
offset held by every Get between its index lookup and its log read is
still the index entry of its key. -/
def LockInv (s : Shared) (ts : List TState) : Prop :=
  s.readers = ts.countP isReader ∧
  ts.countP isWriter = (if s.writer then 1 else 0) ∧
  (s.writer = true → s.readers = 0) ∧
  (∀ t ∈ ts, ∀ k o, (t = .gLooked k o ∨ t = .gSeeked k o) → s.index k = some o)

lemma mem_mid (pre post : List TState) (t : TState) : t ∈ pre ++ t :: post :=
  List.mem_append.2 (Or.inr (List.mem_cons_self _ _))

lemma mem_of_pre {t2 : TState} (pre post : List TState) (t : TState) (h : t2 ∈ pre) :
    t2 ∈ pre ++ t :: post :=
  List.mem_append.2 (Or.inl h)

lemma mem_of_post {t2 : TState} (pre post : List TState) (t : TState) (h : t2 ∈ post) :
    t2 ∈ pre ++ t :: post :=
  List.mem_append.2 (Or.inr (List.mem_cons_of_mem _ h))

end Conc

namespace Conc

lemma countP_mid_congr (p : TState → Bool) (pre post : List TState) (t t' : TState)
    (h : p t = p t') : (pre ++ t :: post).countP p = (pre ++ t' :: post).countP p := by
  simp [List.countP_append, List.countP_cons, h]

lemma countP_mid_succ (p : TState → Bool) (pre post : List TState) (t t' : TState)
    (ht : p t = true) (ht' : p t' = false) :
    (pre ++ t :: post).countP p = (pre ++ t' :: post).countP p + 1 := by
  simp [List.countP_append, List.countP_cons, ht, ht']
  omega

lemma countP_mid_split (p : TState → Bool) (pre post : List TState) (t : TState)
    (ht : p t = false) :
    (pre ++ t :: post).countP p = pre.countP p + post.countP p := by
  simp [List.countP_append, List.countP_cons, ht]

lemma pres_gAcquire {pre post : List TState} {s : Shared} {k : String}
    (hInv : LockInv s (pre ++ .gIdle k :: post)) (hwf : s.writer = false) :
    LockInv { s with readers := s.readers + 1 } (pre ++ .gLocked k :: post) := by
  obtain ⟨hr, hw, hwr, hlk⟩ := hInv
  have eR := countP_mid_succ isReader pre post (.gLocked k) (.gIdle k) rfl rfl
  have eW := countP_mid_congr isWriter pre post (.gIdle k) (.gLocked k) rfl
  refine ⟨?_, ?_, ?_, ?_⟩
  · show s.readers + 1 = (pre ++ TState.gLocked k :: post).countP isReader
    omega
  · show (pre ++ TState.gLocked k :: post).countP isWriter = if s.writer = true then 1 else 0
    rw [← eW]
    exact hw
  · intro habs
    have habs' : s.writer = true := habs
    rw [hwf] at habs'
    exact absurd habs' (by decide)
  · intro t2 ht2 k2 o2 hlo
    rcases List.mem_append.1 ht2 with h2 | h2
    · exact hlk t2 (mem_of_pre _ _ _ h2) k2 o2 hlo
    · rcases List.mem_cons.1 h2 with rfl | h2
      · rcases hlo with h | h <;> exact absurd h (by simp)
      · exact hlk t2 (mem_of_post _ _ _ h2) k2 o2 hlo

lemma pres_gLookupHit {pre post : List TState} {s : Shared} {k : String} {o : Nat}
    (hInv : LockInv s (pre ++ .gLocked k :: post)) (hidx : s.index k = some o) :
    LockInv s (pre ++ .gLooked k o :: post) := by
  obtain ⟨hr, hw, hwr, hlk⟩ := hInv
  have eR := countP_mid_congr isReader pre post (.gLocked k) (.gLooked k o) rfl
  have eW := countP_mid_congr isWriter pre post (.gLocked k) (.gLooked k o) rfl
  refine ⟨by omega, by rw [← eW]; exact hw, hwr, ?_⟩
  intro t2 ht2 k2 o2 hlo
  rcases List.mem_append.1 ht2 with h2 | h2
  · exact hlk t2 (mem_of_pre _ _ _ h2) k2 o2 hlo
  · rcases List.mem_cons.1 h2 with rfl | h2
    · rcases hlo with h | h
      · injection h with h1 h2
        subst h1; subst h2
        exact hidx
      · exact absurd h (by simp)
    · exact hlk t2 (mem_of_post _ _ _ h2) k2 o2 hlo

lemma pres_gLookupMiss {pre post : List TState} {s : Shared} {k : String}
    (hInv : LockInv s (pre ++ .gLocked k :: post)) :
    LockInv { s with readers := s.readers - 1 } (pre ++ .done :: post) := by
  obtain ⟨hr, hw, hwr, hlk⟩ := hInv
  have eR := countP_mid_succ isReader pre post (.gLocked k) .done rfl rfl
  have eW := countP_mid_congr isWriter pre post (.gLocked k) .done rfl
  refine ⟨?_, ?_, ?_, ?_⟩
  · show s.readers - 1 = (pre ++ TState.done :: post).countP isReader
    omega
  · show (pre ++ TState.done :: post).countP isWriter = if s.writer = true then 1 else 0
    rw [← eW]
    exact hw
  · intro habs
    have habs' : s.writer = true := habs
    show s.readers - 1 = 0
    rw [hwr habs']
  · intro t2 ht2 k2 o2 hlo
    rcases List.mem_append.1 ht2 with h2 | h2
    · exact hlk t2 (mem_of_pre _ _ _ h2) k2 o2 hlo
    · rcases List.mem_cons.1 h2 with rfl | h2
      · rcases hlo with h | h <;> exact absurd h (by simp)
      · exact hlk t2 (mem_of_post _ _ _ h2) k2 o2 hlo

lemma pres_gSeek {pre post : List TState} {s : Shared} {k : String} {o : Nat}
    (hInv : LockInv s (pre ++ .gLooked k o :: post)) :
    LockInv { s with cursor := o } (pre ++ .gSeeked k o :: post) := by
  obtain ⟨hr, hw, hwr, hlk⟩ := hInv
  have eR := countP_mid_congr isReader pre post (.gLooked k o) (.gSeeked k o) rfl
  have eW := countP_mid_congr isWriter pre post (.gLooked k o) (.gSeeked k o) rfl
  refine ⟨?_, ?_, hwr, ?_⟩
  · show s.readers = (pre ++ TState.gSeeked k o :: post).countP isReader
    omega
  · show (pre ++ TState.gSeeked k o :: post).countP isWriter = if s.writer = true then 1 else 0
    rw [← eW]
    exact hw
  · intro t2 ht2 k2 o2 hlo
    rcases List.mem_append.1 ht2 with h2 | h2
    · exact hlk t2 (mem_of_pre _ _ _ h2) k2 o2 hlo
    · rcases List.mem_cons.1 h2 with rfl | h2
      · rcases hlo with h | h
        · exact absurd h (by simp)
        · injection h with h1 h2
          subst h1; subst h2
          exact hlk (.gLooked k o) (mem_mid _ _ _) k o (Or.inl rfl)
      · exact hlk t2 (mem_of_post _ _ _ h2) k2 o2 hlo

lemma pres_gRead {pre post : List TState} {s : Shared} {k : String} {o : Nat}
    (hInv : LockInv s (pre ++ .gSeeked k o :: post)) :
    LockInv { s with readers := s.readers - 1 } (pre ++ .done :: post) := by
  obtain ⟨hr, hw, hwr, hlk⟩ := hInv
  have eR := countP_mid_succ isReader pre post (.gSeeked k o) .done rfl rfl
  have eW := countP_mid_congr isWriter pre post (.gSeeked k o) .done rfl
  refine ⟨?_, ?_, ?_, ?_⟩
  · show s.readers - 1 = (pre ++ TState.done :: post).countP isReader
    omega
  · show (pre ++ TState.done :: post).countP isWriter = if s.writer = true then 1 else 0
    rw [← eW]
    exact hw
  · intro habs
    have habs' : s.writer = true := habs
    show s.readers - 1 = 0
    rw [hwr habs']
  · intro t2 ht2 k2 o2 hlo
    rcases List.mem_append.1 ht2 with h2 | h2
    · exact hlk t2 (mem_of_pre _ _ _ h2) k2 o2 hlo
    · rcases List.mem_cons.1 h2 with rfl | h2
      · rcases hlo with h | h <;> exact absurd h (by simp)
      · exact hlk t2 (mem_of_post _ _ _ h2) k2 o2 hlo

lemma pres_sAcquire {pre post : List TState} {s : Shared} {k v : String}
    (hInv : LockInv s (pre ++ .sIdle k v :: post)) (hr0 : s.readers = 0)
    (hwf : s.writer = false) :
    LockInv { s with writer := true } (pre ++ .sLocked k v :: post) := by
  obtain ⟨hr, hw, hwr, hlk⟩ := hInv
  have eR := countP_mid_congr isReader pre post (.sIdle k v) (.sLocked k v) rfl
  have eW := countP_mid_succ isWriter pre post (.sLocked k v) (.sIdle k v) rfl rfl
  rw [hwf, if_neg (by decide)] at hw
  refine ⟨?_, ?_, ?_, ?_⟩
  · show s.readers = (pre ++ TState.sLocked k v :: post).countP isReader
    omega
  · show (pre ++ TState.sLocked k v :: post).countP isWriter = 1
    omega
  · intro _
    show s.readers = 0
    exact hr0
  · intro t2 ht2 k2 o2 hlo
    rcases List.mem_append.1 ht2 with h2 | h2
    · exact hlk t2 (mem_of_pre _ _ _ h2) k2 o2 hlo
    · rcases List.mem_cons.1 h2 with rfl | h2
      · rcases hlo with h | h <;> exact absurd h (by simp)
      · exact hlk t2 (mem_of_post _ _ _ h2) k2 o2 hlo

lemma pres_sSeekEnd {pre post : List TState} {s : Shared} {k v : String}
    (hInv : LockInv s (pre ++ .sLocked k v :: post)) :
    LockInv { s with cursor := s.file.length }
      (pre ++ .sSeeked k v s.file.length :: post) := by
  obtain ⟨hr, hw, hwr, hlk⟩ := hInv
  have eR := countP_mid_congr isReader pre post (.sLocked k v) (.sSeeked k v s.file.length) rfl
  have eW := countP_mid_congr isWriter pre post (.sLocked k v) (.sSeeked k v s.file.length) rfl
  refine ⟨?_, ?_, hwr, ?_⟩
  · show s.readers = (pre ++ TState.sSeeked k v s.file.length :: post).countP isReader
    omega
  · show (pre ++ TState.sSeeked k v s.file.length :: post).countP isWriter
      = if s.writer = true then 1 else 0
    rw [← eW]
    exact hw
  · intro t2 ht2 k2 o2 hlo
    rcases List.mem_append.1 ht2 with h2 | h2
    · exact hlk t2 (mem_of_pre _ _ _ h2) k2 o2 hlo
    · rcases List.mem_cons.1 h2 with rfl | h2
      · rcases hlo with h | h <;> exact absurd h (by simp)
      · exact hlk t2 (mem_of_post _ _ _ h2) k2 o2 hlo

lemma pres_sWriteA {pre post : List TState} {s : Shared} {k v : String} {o : Nat}
    (hInv : LockInv s (pre ++ .sSeeked k v o :: post)) :
    LockInv { s with file := s.file ++ recHalfA k v } (pre ++ .sHalf k v o :: post) := by
  obtain ⟨hr, hw, hwr, hlk⟩ := hInv
  have eR := countP_mid_congr isReader pre post (.sSeeked k v o) (.sHalf k v o) rfl
  have eW := countP_mid_congr isWriter pre post (.sSeeked k v o) (.sHalf k v o) rfl
  refine ⟨?_, ?_, hwr, ?_⟩
  · show s.readers = (pre ++ TState.sHalf k v o :: post).countP isReader
    omega
  · show (pre ++ TState.sHalf k v o :: post).countP isWriter = if s.writer = true then 1 else 0
    rw [← eW]
    exact hw
  · intro t2 ht2 k2 o2 hlo
    rcases List.mem_append.1 ht2 with h2 | h2
    · exact hlk t2 (mem_of_pre _ _ _ h2) k2 o2 hlo
    · rcases List.mem_cons.1 h2 with rfl | h2
      · rcases hlo with h | h <;> exact absurd h (by simp)
      · exact hlk t2 (mem_of_post _ _ _ h2) k2 o2 hlo

lemma pres_sWriteB {pre post : List TState} {s : Shared} {k v : String} {o : Nat}
    (hInv : LockInv s (pre ++ .sHalf k v o :: post)) :
    LockInv { s with file := s.file ++ recHalfB k v } (pre ++ .sWritten k v o :: post) := by
  obtain ⟨hr, hw, hwr, hlk⟩ := hInv
  have eR := countP_mid_congr isReader pre post (.sHalf k v o) (.sWritten k v o) rfl
  have eW := countP_mid_congr isWriter pre post (.sHalf k v o) (.sWritten k v o) rfl
  refine ⟨?_, ?_, hwr, ?_⟩
  · show s.readers = (pre ++ TState.sWritten k v o :: post).countP isReader
    omega
  · show (pre ++ TState.sWritten k v o :: post).countP isWriter = if s.writer = true then 1 else 0
    rw [← eW]
    exact hw
  · intro t2 ht2 k2 o2 hlo
    rcases List.mem_append.1 ht2 with h2 | h2
    · exact hlk t2 (mem_of_pre _ _ _ h2) k2 o2 hlo
    · rcases List.mem_cons.1 h2 with rfl | h2
      · rcases hlo with h | h <;> exact absurd h (by simp)
      · exact hlk t2 (mem_of_post _ _ _ h2) k2 o2 hlo

lemma pres_sUpdate {pre post : List TState} {s : Shared} {k v : String} {o : Nat}
    (hInv : LockInv s (pre ++ .sWritten k v o :: post)) :
    LockInv { s with index := setIndex s.index k o, writer := false }
      (pre ++ .done :: post) := by
  obtain ⟨hr, hw, hwr, hlk⟩ := hInv
  have eR := countP_mid_congr isReader pre post (.sWritten k v o) .done rfl
  have eW := countP_mid_succ isWriter pre post (.sWritten k v o) .done rfl rfl
  have hwt : s.writer = true := by
    by_contra hfalse
    simp only [Bool.not_eq_true] at hfalse
    rw [hfalse, if_neg (by decide)] at hw
    omega
  have hr0 : s.readers = 0 := hwr hwt
  rw [hwt, if_pos rfl] at hw
  refine ⟨?_, ?_, ?_, ?_⟩
  · show s.readers = (pre ++ TState.done :: post).countP isReader
    omega
  · show (pre ++ TState.done :: post).countP isWriter = 0
    omega
  · intro habs
    have habs' : (false : Bool) = true := habs
    exact absurd habs' (by decide)
  · intro t2 ht2 k2 o2 hlo
    have hsplit := countP_mid_split isReader pre post (.sWritten k v o) rfl
    rcases List.mem_append.1 ht2 with h2 | h2
    · have hread : isReader t2 = true := by rcases hlo with rfl | rfl <;> rfl
      have hpos : 0 < pre.countP isReader := List.countP_pos_iff.2 ⟨t2, h2, hread⟩
      exact absurd hr (by rw [hr0, hsplit]; omega)
    · rcases List.mem_cons.1 h2 with rfl | h2
      · rcases hlo with h | h <;> exact absurd h (by simp)
      · have hread : isReader t2 = true := by rcases hlo with rfl | rfl <;> rfl
        have hpos : 0 < post.countP isReader := List.countP_pos_iff.2 ⟨t2, h2, hread⟩
        exact absurd hr (by rw [hr0, hsplit]; omega)

lemma pres_dAcquire {pre post : List TState} {s : Shared} {k : String}
    (hInv : LockInv s (pre ++ .dIdle k :: post)) (hr0 : s.readers = 0)
    (hwf : s.writer = false) :
    LockInv { s with writer := true } (pre ++ .dLocked k :: post) := by
  obtain ⟨hr, hw, hwr, hlk⟩ := hInv
  have eR := countP_mid_congr isReader pre post (.dIdle k) (.dLocked k) rfl
  have eW := countP_mid_succ isWriter pre post (.dLocked k) (.dIdle k) rfl rfl
  rw [hwf, if_neg (by decide)] at hw
  refine ⟨?_, ?_, ?_, ?_⟩
  · show s.readers = (pre ++ TState.dLocked k :: post).countP isReader
    omega
  · show (pre ++ TState.dLocked k :: post).countP isWriter = 1
    omega
  · intro _
    show s.readers = 0
    exact hr0
  · intro t2 ht2 k2 o2 hlo
    rcases List.mem_append.1 ht2 with h2 | h2
    · exact hlk t2 (mem_of_pre _ _ _ h2) k2 o2 hlo
    · rcases List.mem_cons.1 h2 with rfl | h2
      · rcases hlo with h | h <;> exact absurd h (by simp)
      · exact hlk t2 (mem_of_post _ _ _ h2) k2 o2 hlo

lemma pres_dHit {pre post : List TState} {s : Shared} {k : String}
    (hInv : LockInv s (pre ++ .dLocked k :: post)) :
    LockInv { s with index := delIndex s.index k, writer := false }
      (pre ++ .done :: post) := by
  obtain ⟨hr, hw, hwr, hlk⟩ := hInv
  have eR := countP_mid_congr isReader pre post (.dLocked k) .done rfl
  have eW := countP_mid_succ isWriter pre post (.dLocked k) .done rfl rfl
  have hwt : s.writer = true := by
    by_contra hfalse
    simp only [Bool.not_eq_true] at hfalse
    rw [hfalse, if_neg (by decide)] at hw
    omega
  have hr0 : s.readers = 0 := hwr hwt
  rw [hwt, if_pos rfl] at hw
  refine ⟨?_, ?_, ?_, ?_⟩
  · show s.readers = (pre ++ TState.done :: post).countP isReader
    omega
  · show (pre ++ TState.done :: post).countP isWriter = 0
    omega
  · intro habs
    have habs' : (false : Bool) = true := habs
    exact absurd habs' (by decide)
  · intro t2 ht2 k2 o2 hlo
    have hsplit := countP_mid_split isReader pre post (.dLocked k) rfl
    rcases List.mem_append.1 ht2 with h2 | h2
    · have hread : isReader t2 = true := by rcases hlo with rfl | rfl <;> rfl
      have hpos : 0 < pre.countP isReader := List.countP_pos_iff.2 ⟨t2, h2, hread⟩
      exact absurd hr (by rw [hr0, hsplit]; omega)
    · rcases List.mem_cons.1 h2 with rfl | h2
      · rcases hlo with h | h <;> exact absurd h (by simp)
      · have hread : isReader t2 = true := by rcases hlo with rfl | rfl <;> rfl
        have hpos : 0 < post.countP isReader := List.countP_pos_iff.2 ⟨t2, h2, hread⟩
        exact absurd hr (by rw [hr0, hsplit]; omega)

lemma pres_dMiss {pre post : List TState} {s : Shared} {k : String}
    (hInv : LockInv s (pre ++ .dLocked k :: post)) :
    LockInv { s with writer := false } (pre ++ .done :: post) := by
  obtain ⟨hr, hw, hwr, hlk⟩ := hInv
  have eR := countP_mid_congr isReader pre post (.dLocked k) .done rfl
  have eW := countP_mid_succ isWriter pre post (.dLocked k) .done rfl rfl
  have hwt : s.writer = true := by
    by_contra hfalse
    simp only [Bool.not_eq_true] at hfalse
    rw [hfalse, if_neg (by decide)] at hw
    omega
  rw [hwt, if_pos rfl] at hw
  refine ⟨?_, ?_, ?_, ?_⟩
  · show s.readers = (pre ++ TState.done :: post).countP isReader
    omega
  · show (pre ++ TState.done :: post).countP isWriter = 0
    omega
  · intro habs
    have habs' : (false : Bool) = true := habs
    exact absurd habs' (by decide)
  · intro t2 ht2 k2 o2 hlo
    rcases List.mem_append.1 ht2 with h2 | h2
    · exact hlk t2 (mem_of_pre _ _ _ h2) k2 o2 hlo
    · rcases List.mem_cons.1 h2 with rfl | h2
      · rcases hlo with h | h <;> exact absurd h (by simp)
      · exact hlk t2 (mem_of_post _ _ _ h2) k2 o2 hlo

/-- One interleaving step preserves the lock invariant. -/
lemma lockInv_step {c c' : Shared × List TState} (h : Step c c') (hInv : LockInv c.1 c.2) :
    LockInv c'.1 c'.2 := by
  cases h with
  | mk pre post s s' t t' htr =>
    cases htr with
    | gAcquire k hwf => exact pres_gAcquire hInv hwf
    | gLookupHit k o hidx => exact pres_gLookupHit hInv hidx
    | gLookupMiss k hidx => exact pres_gLookupMiss hInv
    | gSeek k o => exact pres_gSeek hInv
    | gRead k o => exact pres_gRead hInv
    | sAcquire k v hr0 hwf => exact pres_sAcquire hInv hr0 hwf
    | sSeekEnd k v => exact pres_sSeekEnd hInv
    | sWriteA k v o => exact pres_sWriteA hInv
    | sWriteB k v o => exact pres_sWriteB hInv
    | sUpdate k v o => exact pres_sUpdate hInv
    | dAcquire k hr0 hwf => exact pres_dAcquire hInv hr0 hwf
    | dHit k o hidx => exact pres_dHit hInv
    | dMiss k hidx => exact pres_dMiss hInv

end Conc

namespace Conc

lemma isIdle_not_reader {t : TState} (h : isIdle t = true) : isReader t = false := by
  cases t <;> simp_all [isIdle, isReader]

lemma isIdle_not_writer {t : TState} (h : isIdle t = true) : isWriter t = false := by
  cases t <;> simp_all [isIdle, isWriter]

/-- The lock invariant holds in any initial configuration: gate free, all
threads outside their critical sections. -/
lemma lockInv_init {s : Shared} {ts : List TState} (h0 : s.readers = 0) (h1 : s.writer = false)
    (hid : ∀ t ∈ ts, isIdle t = true) : LockInv s ts := by
  refine ⟨?_, ?_, ?_, ?_⟩
  · rw [h0]
    symm
    rw [List.countP_eq_zero]
    intro t ht
    simp [isIdle_not_reader (hid t ht)]
  · rw [h1, if_neg (by decide : ¬((false : Bool) = true))]
    rw [List.countP_eq_zero]
    intro t ht
    simp [isIdle_not_writer (hid t ht)]
  · intro habs
    rw [h1] at habs
    exact absurd habs (by decide)
  · intro t ht k o hlo
    have hi := hid t ht
    rcases hlo with rfl | rfl <;> simp [isIdle] at hi

/-- The lock invariant holds at every configuration reachable from an
initial one. -/
lemma lockInv_reach {c c' : Shared × List TState} (h : Reach c c') (hInv : LockInv c.1 c.2) :
    LockInv c'.1 c'.2 := by
  induction h with
  | refl => exact hInv
  | tail _ hstep ih => exact lockInv_step hstep ih

/-- A concrete free gate over the empty store. -/
def sharedInit : Shared :=
  { readers := 0, writer := false, index := fun _ => none, file := [], cursor := 0 }

/-- Two Get threads can both be inside the gate at once: shared
acquisition does not exclude other readers. -/
lemma two_gets_parallel : ∃ s2 : Shared,
    Reach (sharedInit, [.gIdle "a", .gIdle "b"]) (s2, [.gLocked "a", .gLocked "b"]) := by
  refine ⟨{ sharedInit with readers := 2 }, ?_⟩
  have step1 : Step (sharedInit, [.gIdle "a", .gIdle "b"])
      ({ sharedInit with readers := 1 }, [.gLocked "a", .gIdle "b"]) :=
    Step.mk [] [.gIdle "b"] sharedInit _ (.gIdle "a") (.gLocked "a")
      (TTrans.gAcquire sharedInit "a" rfl)
  have step2 : Step ({ sharedInit with readers := 1 }, [.gLocked "a", .gIdle "b"])
      ({ sharedInit with readers := 2 }, [.gLocked "a", .gLocked "b"]) :=
    Step.mk [.gLocked "a"] [] _ _ (.gIdle "b") (.gLocked "b")
      (TTrans.gAcquire { sharedInit with readers := 1 } "b" rfl)
  exact Relation.ReflTransGen.tail (Relation.ReflTransGen.tail Relation.ReflTransGen.refl step1)
    step2

end Conc

namespace Conc

/-- C9: in the thread model of the store, Get acquires the gate in shared
mode (its acquisition only excludes a writer, so multiple Gets proceed in
parallel, witnessed by the third conjunct), while Set and Delete acquire
it exclusively; under this protocol, along every interleaving from an
initial configuration, no read step can coexist with a thread inside a
write critical section (first conjunct: never both a reader-side and a
writer-side critical thread, so no Get observes a partially written
record), and the offset any Get holds between its index lookup and its log
read is still the index entry of its key (second conjunct: the offset is
never invalidated by a concurrent Set or Delete). -/
theorem c9_rwlock_no_torn_read (s₀ : Shared) (ts₀ : List TState) (s : Shared)
    (ts : List TState) (h0 : s₀.readers = 0) (h1 : s₀.writer = false)
    (hid : ∀ t ∈ ts₀, isIdle t = true) (hreach : Reach (s₀, ts₀) (s, ts)) :
    (ts.countP isReader = 0 ∨ ts.countP isWriter = 0)
    ∧ (∀ t ∈ ts, ∀ k o, (t = .gLooked k o ∨ t = .gSeeked k o) → s.index k = some o)
    ∧ ∃ s2 : Shared,
        Reach (sharedInit, [.gIdle "a", .gIdle "b"]) (s2, [.gLocked "a", .gLocked "b"]) := by
  have hInv := lockInv_reach hreach (lockInv_init h0 h1 hid)
  obtain ⟨hr, hw, hwr, hlk⟩ := hInv
  refine ⟨?_, hlk, two_gets_parallel⟩
  by_cases hwb : s.writer = true
  · left
    rw [← hr]
    exact hwr hwb
  · right
    rw [hw, if_neg hwb]

/-- Witness for C9: the theorem applies to the one-thread initial
configuration itself. -/
theorem c9_rwlock_no_torn_read_witness :
    (([TState.gIdle "a"].countP isReader = 0 ∨ [TState.gIdle "a"].countP isWriter = 0))
    ∧ (∀ t ∈ [TState.gIdle "a"], ∀ k o,
        (t = TState.gLooked k o ∨ t = TState.gSeeked k o) → sharedInit.index k = some o)
    ∧ ∃ s2 : Shared,
        Reach (sharedInit, [.gIdle "a", .gIdle "b"]) (s2, [.gLocked "a", .gLocked "b"]) :=
  c9_rwlock_no_torn_read sharedInit [.gIdle "a"] sharedInit [.gIdle "a"] rfl rfl
    (by decide) Relation.ReflTransGen.refl

end Conc

end OwnDB
